import Mathlib

/-!
Verification development for the explicit-free-list dynamic memory allocator
in `mm.c` (CS:APP malloc lab, 64-bit port).

The allocator manages one contiguous heap region.  Physically the heap is a
chain of boundary-tagged blocks: a prologue sentinel (size `MIN`, allocated),
ordinary blocks, and an epilogue sentinel (size 0, allocated).  Free blocks are
additionally linked into an explicit doubly-linked free list whose head is the
global `free_p`; insertion is always at the head, so the Lean list below, read
left to right, is exactly the source's head-to-tail traversal order.

Shallow embedding used here:
* the physical chain is a `List Block` (prologue first, epilogue last); a
  block's payload address is `HEAP_BASE` plus the sizes of all blocks before
  it, exactly the `NEXT_BLKP`/`PREV_BLKP` size arithmetic of the source;
* the free list is a `List Nat` of payload addresses; `insert_free_block`
  (head insertion) is cons, and the four pointer-splicing cases of
  `remove_block` collapse to erasing the element from the sequence;
* `heap_listp` is a `Nat`, `0` meaning "never initialized" as in the source;
* `checkCount` counts invocations of `mm_checkheap` (the source calls it
  unconditionally from `extend_heap`; the call in `mm_init` is compiled out
  because `DEBUG` is not defined);
* `sbrks` is the oracle for the external `mem_sbrk` collaborator: each call
  consumes one boolean (success/failure); an exhausted oracle fails;
* `mem` is an association list modelling caller-visible payload bytes; it is
  written only by `memset` (in `calloc`) and `memcpy` (in `realloc`).  The
  free-list link bytes that the source stores inside free blocks' payloads
  are represented abstractly by the `freeList` field.
* a function returning `none` at top level models a run that faults (null or
  wild dereference), e.g. `memset(NULL, 0, n)` with `n > 0`.

The heap-validator's physical-block walk is modelled separately at word level
(`checkAllBlocksCode` below) because the claim about it concerns the raw
pointer arithmetic of its loop condition.
-/

namespace MM

/-- Word and header/footer size in bytes (`WSIZE`). -/
def WSIZE : Nat := 4

/-- Double word size in bytes (`DSIZE`). -/
def DSIZE : Nat := 8

/-- Heap extension quantum in bytes (`CHUNKSIZE = 1 << 12`). -/
def CHUNKSIZE : Nat := 4096

/-- Minimum block size in bytes (`MIN`). -/
def MIN : Nat := 24

/-- Modulus of the C `size_t` type. -/
def WORD64 : Nat := 2 ^ 64

/-- Rounds up to the nearest multiple of 8 (`ALIGN(size) = (size + 7) & ~0x7`). -/
def ALIGN (size : Nat) : Nat := (size + 7) / 8 * 8

/-- A boundary-tagged block: its total size (header + payload + footer) and
its allocation bit.  Header and footer carry the same pair in the source; the
embedding stores the pair once per block. -/
structure Block where
  size : Nat
  alloc : Bool
deriving DecidableEq

/-- The allocator state: physical chain, explicit free list, the
`heap_listp` global (0 = uninitialized), the number of `mm_checkheap`
invocations so far, the `mem_sbrk` oracle, and caller-payload memory. -/
structure Heap where
  blocks : List Block
  freeList : List Nat
  heap_listp : Nat
  checkCount : Nat
  sbrks : List Bool
  mem : List (Nat × Nat)
deriving DecidableEq

/-- Payload address of the prologue block: `mem_heap_lo() + DSIZE`. -/
def HEAP_BASE : Nat := 8

/-- Total size in bytes of a list of blocks. -/
def sumSizes (l : List Block) : Nat := (l.map Block.size).sum

/-- Splits a physical chain at the block whose payload address is `target`,
where the first block of the chain has payload address `a`.  This is the
embedding of the `HDRP`/`NEXT_BLKP` size arithmetic that locates a block. -/
def splitChain : List Block → Nat → Nat → Option (List Block × Block × List Block)
  | [], _, _ => none
  | b :: bs, a, target =>
    if a = target then some ([], b, bs)
    else
      match splitChain bs (a + b.size) target with
      | some (pre, c, post) => some (b :: pre, c, post)
      | none => none

/-- Locates the block with payload address `bp` in the heap. -/
def findBlock (h : Heap) (bp : Nat) : Option (List Block × Block × List Block) :=
  splitChain h.blocks HEAP_BASE bp

/-- Reads `GET_SIZE(HDRP(bp))`: the size field of the block at `bp`. -/
def sizeAt (h : Heap) (bp : Nat) : Option Nat :=
  (findBlock h bp).map (fun t => t.2.1.size)

/-- Replaces the physical chain of the heap (the net effect of the source's
header/footer `PUT`s). -/
def setChain (h : Heap) (blocks : List Block) : Heap :=
  { h with blocks := blocks }

/-- `insert_free_block(ptr)`: make `ptr` the new head of the free list.  Both
source cases (empty and non-empty old list) are head insertion. -/
def insert_free_block (h : Heap) (ptr : Nat) : Heap :=
  { h with freeList := ptr :: h.freeList }

/-- `remove_block(bp)`: splice `bp` out of the free list.  The source's four
pointer-splicing cases (interior, tail, sole element, head) are exactly
erasure from the sequence. -/
def remove_block (h : Heap) (bp : Nat) : Heap :=
  { h with freeList := h.freeList.erase bp }

/-- `coalesce(bp)`: merge the block at `bp` with free physical neighbors.
The whole body is guarded by `if (free_p != NULL)`; the three merge cases
inspect `GET_ALLOC(FTRP(PREV_BLKP(bp)))` and `GET_ALLOC(HDRP(NEXT_BLKP(bp)))`,
remove the absorbed neighbors from the free list, and rewrite the merged
block's tags.  Returns the (possibly moved) block pointer and the new state. -/
def coalesce (h : Heap) (bp : Nat) : Nat × Heap :=
  if h.freeList ≠ [] then
    match findBlock h bp with
    | some (pre, b, post) =>
      match pre.getLast?, post.head? with
      | some prevB, some nextB =>
        if !prevB.alloc && nextB.alloc then
          -- Case 1: left neighbor is free
          let size := b.size + prevB.size
          let bp2 := bp - prevB.size
          let h2 := remove_block h bp2
          (bp2, setChain h2 (pre.dropLast ++ Block.mk size false :: post))
        else if prevB.alloc && !nextB.alloc then
          -- Case 2: right neighbor is free
          let size := b.size + nextB.size
          let h2 := remove_block h (bp + b.size)
          (bp, setChain h2 (pre ++ Block.mk size false :: post.drop 1))
        else if !prevB.alloc && !nextB.alloc then
          -- Case 3: both neighbors are free
          let size := b.size + prevB.size + nextB.size
          let h2 := remove_block (remove_block h (bp - prevB.size)) (bp + b.size)
          (bp - prevB.size, setChain h2 (pre.dropLast ++ Block.mk size false :: post.drop 1))
        else (bp, h)
      | _, _ => (bp, h)
    | none => (bp, h)
  else (bp, h)

/-- `place(bp, asize)`: put an allocated block of `asize` bytes at the start
of the free block `bp`.  If the remainder `csize - asize` (a `size_t`
subtraction) is at least `MIN`, split: tag the low part allocated, remove
`bp` from the free list, tag the high part free, coalesce it and insert the
result; otherwise allocate the whole block and remove it from the list. -/
def place (h : Heap) (bp asize : Nat) : Heap :=
  match findBlock h bp with
  | none => h
  | some (pre, b, post) =>
    let csize := b.size
    let rem := (csize + WORD64 - asize) % WORD64
    if MIN ≤ rem then
      let h1 := setChain h (pre ++ Block.mk asize true :: Block.mk rem false :: post)
      let h2 := remove_block h1 bp
      let r := coalesce h2 (bp + asize)
      insert_free_block r.2 r.1
    else
      let h1 := setChain h (pre ++ Block.mk csize true :: post)
      remove_block h1 bp

/-- Walk of the free list performed by `find_fit`. -/
def findFitAux (h : Heap) (asize : Nat) : List Nat → Option Nat
  | [] => none
  | a :: rest =>
    match sizeAt h a with
    | some s => if asize ≤ s then some a else findFitAux h asize rest
    | none => none

/-- `find_fit(asize)`: first-fit search of the free list from `free_p`. -/
def find_fit (h : Heap) (asize : Nat) : Option Nat :=
  findFitAux h asize h.freeList

/-- `mem_sbrk`: the external heap-growth collaborator, modelled by the
oracle `sbrks`; each call consumes one success/failure bit. -/
def mem_sbrk (h : Heap) : Bool × Heap :=
  match h.sbrks with
  | [] => (false, h)
  | ok :: rest => (ok, { h with sbrks := rest })

/-- `extend_heap(words)`: round the request to an even number of words and to
the alignment, grow the heap, write the new free block's tags over the old
epilogue, write a fresh epilogue, coalesce with a trailing free block, insert
the result into the free list, and run `mm_checkheap(0)`. -/
def extend_heap (h : Heap) (words : Nat) : Option Nat × Heap :=
  let size := ALIGN (if words % 2 = 1 then (words + 1) * WSIZE else words * WSIZE)
  let s := mem_sbrk h
  if s.1 = false then (none, s.2)
  else
    let h1 := s.2
    let bp := HEAP_BASE + sumSizes h1.blocks.dropLast
    let h2 := setChain h1 (h1.blocks.dropLast ++ [Block.mk size false, Block.mk 0 true])
    let r := coalesce h2 bp
    let h3 := insert_free_block r.2 r.1
    let h4 := { h3 with checkCount := h3.checkCount + 1 }
    (some r.1, h4)

/-- `mm_init()`: obtain 32 bytes, lay out padding, prologue and epilogue, set
`heap_listp` and clear `free_p`, then extend by `CHUNKSIZE` bytes.  Returns
`some (-1, _)` when the extension fails (the heap keeps its sentinels) and
`none` when the very first `mem_sbrk` fails, in which case the source writes
through `(void *)-1` and faults. -/
def mm_init (h : Heap) : Option (Int × Heap) :=
  let s := mem_sbrk h
  if s.1 = false then none
  else
    let h1 := { s.2 with blocks := [Block.mk MIN true, Block.mk 0 true],
                         freeList := [], heap_listp := HEAP_BASE }
    let r := extend_heap h1 (CHUNKSIZE / WSIZE)
    match r.1 with
    | none => some (-1, r.2)
    | some _ => some (0, r.2)

/-- Adjusted block size computed by `malloc` and `realloc`: overhead and
alignment padding, then forced up to the minimum block size. -/
def adjSize (size : Nat) : Nat :=
  let a := if size ≤ DSIZE then 2 * DSIZE
           else DSIZE * ((size + DSIZE + (DSIZE - 1)) / DSIZE)
  max a MIN

/-- Body of `malloc` after the lazy-initialization check. -/
def mallocBody (h : Heap) (size : Nat) : Option (Option Nat × Heap) :=
  if size = 0 then some (none, h)
  else
    let asize := adjSize size
    match find_fit h asize with
    | some bp => some (some bp, place h bp asize)
    | none =>
      let extendsize := max asize CHUNKSIZE
      let r := extend_heap h (extendsize / WSIZE)
      match r.1 with
      | none => some (none, r.2)
      | some bp => some (some bp, place r.2 bp asize)

/-- `malloc(size)`: lazily initialize if `heap_listp == 0`, return null for a
zero request, otherwise first-fit search, place on a hit, extend the heap and
place on a miss.  A `none` result models a faulting run. -/
def malloc (h : Heap) (size : Nat) : Option (Option Nat × Heap) :=
  if h.heap_listp = 0 then
    match mm_init h with
    | none => none
    | some ir => mallocBody ir.2 size
  else mallocBody h size

/-- Tag rewriting, coalescing and free-list insertion performed by `free`
after its lazy-initialization check. -/
def freeTags (h : Heap) (p size : Nat) : Option Heap :=
  match findBlock h p with
  | none => none
  | some (pre, _, post) =>
    let h2 := setChain h (pre ++ Block.mk size false :: post)
    let r := coalesce h2 p
    some (insert_free_block r.2 r.1)

/-- `free(bp)`: return at once on a null pointer; otherwise read the block
size from its header (the source does this before the lazy-initialization
check), initialize if `heap_listp == 0`, clear the tags, coalesce, and insert
the result into the free list. -/
def free (h : Heap) (bp : Option Nat) : Option Heap :=
  match bp with
  | none => some h
  | some p =>
    match sizeAt h p with
    | none => none
    | some size =>
      match (if h.heap_listp = 0 then (mm_init h).map Prod.snd else some h) with
      | none => none
      | some h1 => freeTags h1 p size

/-- Value stored at byte address `a` of the caller-payload memory. -/
def memRead (m : List (Nat × Nat)) (a : Nat) : Nat :=
  match m.lookup a with
  | some v => v
  | none => 0

/-- `memset(p, 0, n)`: zero-fill `n` bytes starting at `p`. -/
def memset0 (h : Heap) (p n : Nat) : Heap :=
  { h with mem := (List.range n).foldl (fun m i => (p + i, 0) :: m) h.mem }

/-- `memcpy(dst, src, n)`: copy `n` bytes. -/
def memcpy (h : Heap) (dst src n : Nat) : Heap :=
  { h with mem := (List.range n).foldl (fun m i => (dst + i, memRead h.mem (src + i)) :: m) h.mem }

/-- `realloc(ptr, size)`: `size == 0` acts as `free`; a null `ptr` acts as
`malloc`; an unchanged adjusted size returns `ptr`; otherwise allocate a new
block, copy `min(size, oldsize)` bytes, free the old block. -/
def realloc (h : Heap) (ptr : Option Nat) (size : Nat) : Option (Option Nat × Heap) :=
  let asize := adjSize size
  if size = 0 then
    match free h ptr with
    | none => none
    | some h1 => some (none, h1)
  else
    match ptr with
    | none => malloc h size
    | some p =>
      match sizeAt h p with
      | none => none
      | some oldsize =>
        if oldsize = asize then some (some p, h)
        else
          match malloc h size with
          | none => none
          | some (none, h1) => some (none, h1)
          | some (some newp, h1) =>
            let h2 := memcpy h1 newp p (min size oldsize)
            match free h2 (some p) with
            | none => none
            | some h3 => some (some newp, h3)

/-- `calloc(nmemb, size)`: `malloc(nmemb * size)` followed by
`memset(newptr, 0, bytes)`.  The source performs the `memset` without a null
check, so a failed allocation with `bytes > 0` writes through a null pointer
(modelled as `none`). -/
def calloc (h : Heap) (nmemb size : Nat) : Option (Option Nat × Heap) :=
  let bytes := nmemb * size
  match malloc h bytes with
  | none => none
  | some (newptr, h1) =>
    match newptr with
    | some p => some (some p, memset0 h1 p bytes)
    | none => if bytes = 0 then some (none, h1) else none

/-- Adjacency predicate for the eager-coalescing invariant: of two physically
adjacent blocks at least one is allocated. -/
def adjOK (a b : Block) : Prop := a.alloc = true ∨ b.alloc = true

/-- Boolean check that no two physically adjacent blocks are both free. -/
def noAdjFreeB : List Block → Bool
  | a :: b :: rest => (a.alloc || b.alloc) && noAdjFreeB (b :: rest)
  | _ => true

/-- No two physically adjacent blocks of the chain are both free. -/
def noAdjFree (l : List Block) : Prop := noAdjFreeB l = true

instance (l : List Block) : Decidable (noAdjFree l) :=
  inferInstanceAs (Decidable (noAdjFreeB l = true))

end MM

namespace MM

/-! ### Helper lemmas -/

theorem sumSizes_nil : sumSizes [] = 0 := rfl

theorem sumSizes_cons (b : Block) (l : List Block) :
    sumSizes (b :: l) = b.size + sumSizes l := by
  simp [sumSizes]

theorem sumSizes_append (l₁ l₂ : List Block) :
    sumSizes (l₁ ++ l₂) = sumSizes l₁ + sumSizes l₂ := by
  simp [sumSizes]

/-- Locating a block whose address is computed from the sizes of the blocks
before it succeeds and returns exactly the surrounding decomposition, provided
every earlier block has positive size (addresses strictly increase). -/
theorem splitChain_eq (pre : List Block) (x : Block) (post : List Block) (a : Nat)
    (hpos : ∀ c ∈ pre, 0 < c.size) :
    splitChain (pre ++ x :: post) a (a + sumSizes pre) = some (pre, x, post) := by
  induction pre generalizing a with
  | nil => simp [splitChain, sumSizes]
  | cons b pre ih =>
    have hb : 0 < b.size := hpos b (by simp)
    have hih := ih (a + b.size) (fun c hc => hpos c (by simp [hc]))
    have hta : a + sumSizes (b :: pre) = a + b.size + sumSizes pre := by
      rw [sumSizes_cons]; omega
    have hne : a ≠ a + b.size + sumSizes pre := by omega
    rw [List.cons_append, hta]
    simp only [splitChain, if_neg hne, hih]

theorem findBlock_eq (h : Heap) (pre : List Block) (x : Block) (post : List Block)
    (hb : h.blocks = pre ++ x :: post) (hpos : ∀ c ∈ pre, 0 < c.size) :
    findBlock h (HEAP_BASE + sumSizes pre) = some (pre, x, post) := by
  rw [findBlock, hb, splitChain_eq pre x post HEAP_BASE hpos]

theorem sizeAt_eq (h : Heap) (pre : List Block) (x : Block) (post : List Block)
    (hb : h.blocks = pre ++ x :: post) (hpos : ∀ c ∈ pre, 0 < c.size) :
    sizeAt h (HEAP_BASE + sumSizes pre) = some x.size := by
  rw [sizeAt, findBlock_eq h pre x post hb hpos, Option.map_some']

/-- The `size_t` subtraction `csize - asize` equals the natural subtraction
when it does not wrap. -/
theorem sub64_eq (csize asize : Nat) (hle : asize ≤ csize) (hlt : csize < WORD64) :
    (csize + WORD64 - asize) % WORD64 = csize - asize := by
  have h1 : csize + WORD64 - asize = (csize - asize) + WORD64 := by omega
  have h2 : csize - asize < WORD64 := by omega
  rw [h1, Nat.add_mod_right, Nat.mod_eq_of_lt h2]

/-- The adjusted size of a positive request is the total block size
(payload + `DSIZE` of overhead) rounded up to the alignment and forced up to
the minimum block size. -/
theorem adjSize_eq (n : Nat) (hn : 0 < n) :
    adjSize n = max (ALIGN (n + DSIZE)) MIN := by
  unfold adjSize ALIGN DSIZE MIN
  by_cases hle : n ≤ 8
  · have h1 : (n + 8 + 7) / 8 = 2 := by omega
    simp only [if_pos hle, h1]
  · have h1 : n + 8 + (8 - 1) = n + 8 + 7 := by omega
    simp only [if_neg hle, h1]
    omega

/-- `coalesce` mutates only the physical chain and the free list. -/
theorem coalesce_shape (h : Heap) (bp : Nat) :
    ∃ bl fl, (coalesce h bp).2 = { h with blocks := bl, freeList := fl } := by
  unfold coalesce
  repeat' split
  all_goals exact ⟨_, _, rfl⟩

theorem coalesce_fields (h : Heap) (bp : Nat) :
    (coalesce h bp).2.heap_listp = h.heap_listp ∧
    (coalesce h bp).2.checkCount = h.checkCount ∧
    (coalesce h bp).2.sbrks = h.sbrks ∧
    (coalesce h bp).2.mem = h.mem := by
  obtain ⟨bl, fl, hs⟩ := coalesce_shape h bp
  rw [hs]
  exact ⟨rfl, rfl, rfl, rfl⟩

/-- `place` mutates only the physical chain and the free list. -/
theorem place_fields (h : Heap) (bp asize : Nat) :
    (place h bp asize).heap_listp = h.heap_listp ∧
    (place h bp asize).checkCount = h.checkCount ∧
    (place h bp asize).sbrks = h.sbrks ∧
    (place h bp asize).mem = h.mem := by
  unfold place
  split
  · exact ⟨rfl, rfl, rfl, rfl⟩
  · dsimp only
    split
    · rename_i pre b post heq hif
      have hc := coalesce_fields (remove_block (setChain h (pre ++ Block.mk asize true ::
          Block.mk ((b.size + WORD64 - asize) % WORD64) false :: post)) bp) (bp + asize)
      exact ⟨hc.1, hc.2.1, hc.2.2.1, hc.2.2.2⟩
    · exact ⟨rfl, rfl, rfl, rfl⟩

/-- `extend_heap` never modifies `heap_listp` or caller-payload memory. -/
theorem extend_heap_fields (h : Heap) (words : Nat) :
    (extend_heap h words).2.heap_listp = h.heap_listp ∧
    (extend_heap h words).2.mem = h.mem := by
  have hm : (mem_sbrk h).2.heap_listp = h.heap_listp ∧ (mem_sbrk h).2.mem = h.mem := by
    unfold mem_sbrk
    split
    · exact ⟨rfl, rfl⟩
    · exact ⟨rfl, rfl⟩
  unfold extend_heap
  dsimp only
  split
  · exact hm
  · have hc := coalesce_fields (setChain (mem_sbrk h).2 ((mem_sbrk h).2.blocks.dropLast ++
      [Block.mk (ALIGN (if words % 2 = 1 then (words + 1) * WSIZE else words * WSIZE)) false,
       Block.mk 0 true])) (HEAP_BASE + sumSizes (mem_sbrk h).2.blocks.dropLast)
    exact ⟨hc.1.trans hm.1, hc.2.2.2.trans hm.2⟩

/-- After a successful `mm_init`, `heap_listp` is set to the prologue
address. -/
theorem mm_init_listp (h : Heap) (r : Int × Heap) (hr : mm_init h = some r) :
    r.2.heap_listp = HEAP_BASE := by
  unfold mm_init at hr
  dsimp only at hr
  split at hr
  · exact absurd hr (by simp)
  · split at hr <;>
    · simp only [Option.some.injEq] at hr
      rw [← hr]
      exact (extend_heap_fields _ _).1


/-- The Boolean adjacency check agrees with `List.Chain' adjOK`. -/
theorem noAdjFree_iff (l : List Block) : noAdjFree l ↔ List.Chain' adjOK l := by
  induction l with
  | nil => simp [noAdjFree, noAdjFreeB]
  | cons a l ih =>
    cases l with
    | nil => simp [noAdjFree, noAdjFreeB]
    | cons b r =>
      rw [List.chain'_cons, ← ih]
      simp [noAdjFree, noAdjFreeB, adjOK]

/-- `mem_sbrk` only consumes the oracle. -/
theorem mem_sbrk_fields (h : Heap) :
    (mem_sbrk h).2.blocks = h.blocks ∧ (mem_sbrk h).2.freeList = h.freeList ∧
    (mem_sbrk h).2.heap_listp = h.heap_listp ∧ (mem_sbrk h).2.checkCount = h.checkCount ∧
    (mem_sbrk h).2.mem = h.mem := by
  unfold mem_sbrk
  split
  · exact ⟨rfl, rfl, rfl, rfl, rfl⟩
  · exact ⟨rfl, rfl, rfl, rfl, rfl⟩

/-- With an empty free list the guard of `coalesce` short-circuits. -/
theorem coalesce_empty (h : Heap) (bp : Nat) (hf : h.freeList = []) :
    coalesce h bp = (bp, h) := by
  unfold coalesce
  rw [hf]
  simp

/-- The free-list walk of `find_fit` returns the first block that fits. -/
theorem findFitAux_first (h : Heap) (asize : Nat) (l₁ l₂ : List Nat) (bp s : Nat)
    (hsz : sizeAt h bp = some s) (hfit : asize ≤ s)
    (hsmall : ∀ a ∈ l₁, ∃ t, sizeAt h a = some t ∧ t < asize) :
    findFitAux h asize (l₁ ++ bp :: l₂) = some bp := by
  induction l₁ with
  | nil =>
    rw [List.nil_append]
    unfold findFitAux
    rw [hsz]
    simp [if_pos hfit]
  | cons a l₁ ih =>
    obtain ⟨t, hta, htlt⟩ := hsmall a (by simp)
    have hrest := ih (fun x hx => hsmall x (by simp [hx]))
    rw [List.cons_append]
    unfold findFitAux
    rw [hta]
    simp only [if_neg (by omega : ¬ asize ≤ t)]
    exact hrest


/-! ### Concrete states used by witnesses and counterexamples -/

/-- A pristine allocator state: no heap, `heap_listp == 0`, two successful
`mem_sbrk` calls available. -/
def heap0 : Heap := ⟨[], [], 0, 0, [true, true], []⟩

/-- The state produced by `mm_init` on `heap0`: prologue, one free block of
`CHUNKSIZE` bytes at payload address 32, epilogue; one validator run. -/
def heapInit : Heap := ⟨[⟨24, true⟩, ⟨4096, false⟩, ⟨0, true⟩], [32], 8, 1, [], []⟩

/-- An initialized heap with a single allocated 24-byte block at payload
address 32, an empty free list, and a failing `mem_sbrk`. -/
def heapNoMem : Heap := ⟨[⟨24, true⟩, ⟨24, true⟩, ⟨0, true⟩], [], 8, 0, [false], []⟩

/-- `heapNoMem` after `free(32)`: the block is free and heads the free list. -/
def heapNoMemFreed : Heap := ⟨[⟨24, true⟩, ⟨24, false⟩, ⟨0, true⟩], [32], 8, 0, [false], []⟩

/-- An initialized heap with two allocated blocks (payload addresses 32 and
56) followed by a free block at 80. -/
def heapTwo : Heap :=
  ⟨[⟨24, true⟩, ⟨24, true⟩, ⟨24, true⟩, ⟨4048, false⟩, ⟨0, true⟩], [80], 8, 0, [], []⟩

/-! ### Claims -/

/-- C10: when the free list is empty (`free_p == NULL`), `coalesce` is a
guarded no-op: for every block pointer it returns its argument and the state
unchanged, reading and writing nothing (the guard short-circuits before any
tag or link access). -/
theorem coalesce_guarded_noop (h : Heap) (bp : Nat) (hf : h.freeList = []) :
    coalesce h bp = (bp, h) :=
  coalesce_empty h bp hf

theorem coalesce_guarded_noop_witness :
    heapNoMem.freeList = [] ∧ coalesce heapNoMem 32 = (32, heapNoMem) :=
  ⟨rfl, coalesce_guarded_noop heapNoMem 32 rfl⟩

/-- C8 counterexample: `malloc(0)` on a never-initialized allocator does not
leave the state unchanged — the lazy-initialization check precedes the
zero-size check, so the whole heap is built (and the validator run once)
before null is returned. -/
theorem malloc_zero_changes_state :
    malloc heap0 0 = some (none, heapInit) ∧ heapInit ≠ heap0 := by
  constructor
  · rfl
  · decide

/-- C8 amended: `free(NULL)` never changes any allocator state, and
`allocate(0)` returns null; on an already-initialized heap it changes no
state (on a never-initialized heap it first performs lazy initialization
because the `heap_listp == 0` check precedes the `size == 0` check). -/
theorem free_null_malloc_zero_noop :
    (∀ h : Heap, free h none = some h) ∧
    (∀ h : Heap, h.heap_listp ≠ 0 → malloc h 0 = some (none, h)) := by
  constructor
  · intro h
    rfl
  · intro h hl
    unfold malloc
    rw [if_neg hl]
    rfl

theorem free_null_malloc_zero_noop_witness :
    heapInit.heap_listp ≠ 0 ∧ malloc heapInit 0 = some (none, heapInit) :=
  ⟨by decide, free_null_malloc_zero_noop.2 heapInit (by decide)⟩

/-- C9 counterexample: `free(NULL)` called before `initialize` has ever run
returns without performing any initialization — the null check precedes the
lazy-initialization check, so the heap base pointer stays unset. -/
theorem free_null_skips_init :
    free heap0 none = some heap0 ∧ heap0.heap_listp = 0 :=
  ⟨rfl, rfl⟩

/-- C9 amended: `allocate` called while `heap_listp` is still unset first
performs the full initialization and then proceeds exactly as if called on
the initialized state; `free` behaves likewise except `free(NULL)`, which
returns immediately without initializing. -/
theorem malloc_lazy_init :
    (∀ (h : Heap) (n : Nat), h.heap_listp = 0 →
        malloc h n = (mm_init h).bind (fun r => malloc r.2 n)) ∧
    (∀ h : Heap, h.heap_listp = 0 → free h none = some h) := by
  constructor
  · intro h n hl
    have hbody : ∀ h2 : Heap, h2.heap_listp = HEAP_BASE → malloc h2 n = mallocBody h2 n := by
      intro h2 h2l
      unfold malloc
      rw [h2l, if_neg (by decide : ¬ HEAP_BASE = 0)]
    unfold malloc
    rw [if_pos hl]
    cases hinit : mm_init h with
    | none => rfl
    | some r =>
      show mallocBody r.2 n = malloc r.2 n
      exact (hbody r.2 (mm_init_listp h r hinit)).symm
  · intro h _
    rfl

theorem malloc_lazy_init_witness :
    heap0.heap_listp = 0 ∧
    malloc heap0 16 = (mm_init heap0).bind (fun r => malloc r.2 16) :=
  ⟨rfl, malloc_lazy_init.1 heap0 16 rfl⟩

/-- C1: for a positive request `n`, `malloc` computes the adjusted size —
the payload plus `DSIZE` bytes of overhead rounded up to 8-byte alignment,
forced up to the minimum block size `MIN = 24` — and returns the first block
in head-to-tail free-list order whose size is at least that adjusted size,
placing the request there. -/
theorem malloc_first_fit (h : Heap) (n bp s : Nat) (l₁ l₂ : List Nat)
    (hl : h.heap_listp ≠ 0) (hn : 0 < n)
    (hfl : h.freeList = l₁ ++ bp :: l₂)
    (hsz : sizeAt h bp = some s) (hfit : adjSize n ≤ s)
    (hsmall : ∀ a ∈ l₁, ∃ t, sizeAt h a = some t ∧ t < adjSize n) :
    malloc h n = some (some bp, place h bp (adjSize n)) ∧
    adjSize n = max (ALIGN (n + DSIZE)) MIN := by
  refine ⟨?_, adjSize_eq n hn⟩
  have hff : find_fit h (adjSize n) = some bp := by
    rw [find_fit, hfl]
    exact findFitAux_first h (adjSize n) l₁ l₂ bp s hsz hfit hsmall
  unfold malloc
  rw [if_neg hl]
  unfold mallocBody
  rw [if_neg (by omega : ¬ n = 0)]
  dsimp only
  rw [hff]

theorem malloc_first_fit_witness :
    malloc heapInit 16 = some (some 32, place heapInit 32 (adjSize 16)) ∧
    adjSize 16 = max (ALIGN (16 + DSIZE)) MIN :=
  malloc_first_fit heapInit 16 32 4096 [] [] (by decide) (by decide) rfl
    (by decide) (by decide) (by simp)


/-- C5: if the fresh allocation inside `realloc(p, n)` fails (no fitting free
block and heap extension denied), `realloc` returns null and the original
allocated block at `p` is left fully intact: the physical chain (hence its
size and allocation state), the free list and all caller-payload bytes are
unchanged. -/
theorem realloc_failure_intact (h : Heap) (p n : Nat) (pre : List Block) (b : Block)
    (post : List Block)
    (hl : h.heap_listp ≠ 0)
    (hb : h.blocks = pre ++ b :: post) (hpos : ∀ c ∈ pre, 0 < c.size)
    (hp : p = HEAP_BASE + sumSizes pre)
    (_halloc : b.alloc = true)
    (hn : 0 < n) (hne : adjSize n ≠ b.size)
    (hmiss : find_fit h (adjSize n) = none)
    (hsbrk : (mem_sbrk h).1 = false) :
    realloc h (some p) n = some (none, (mem_sbrk h).2) ∧
    (mem_sbrk h).2.blocks = h.blocks ∧ (mem_sbrk h).2.freeList = h.freeList ∧
    (mem_sbrk h).2.mem = h.mem := by
  have hmal : malloc h n = some (none, (mem_sbrk h).2) := by
    unfold malloc
    rw [if_neg hl]
    unfold mallocBody
    rw [if_neg (by omega : ¬ n = 0)]
    dsimp only
    rw [hmiss]
    unfold extend_heap
    dsimp only
    rw [if_pos hsbrk]
  have hsz : sizeAt h p = some b.size := by
    rw [hp]
    exact sizeAt_eq h pre b post hb hpos
  have hmsf := mem_sbrk_fields h
  refine ⟨?_, hmsf.1, hmsf.2.1, hmsf.2.2.2.2⟩
  unfold realloc
  rw [if_neg (by omega : ¬ n = 0)]
  dsimp only
  rw [hsz]
  dsimp only
  rw [if_neg (fun he => hne he.symm), hmal]

theorem realloc_failure_intact_witness :
    realloc heapNoMem (some 32) 100 = some (none, (mem_sbrk heapNoMem).2) ∧
    (mem_sbrk heapNoMem).2.blocks = heapNoMem.blocks ∧
    (mem_sbrk heapNoMem).2.freeList = heapNoMem.freeList ∧
    (mem_sbrk heapNoMem).2.mem = heapNoMem.mem :=
  realloc_failure_intact heapNoMem 32 100 [⟨24, true⟩] ⟨24, true⟩ [⟨0, true⟩]
    (by decide) rfl (by simp) (by decide) rfl (by decide) (by decide) (by decide) rfl

/-- C4: the claim fails on the code.  When the inner `malloc` fails with a
positive byte count, `calloc` does not return null with no other effect — it
calls `memset(NULL, 0, bytes)` and writes through the null pointer (a
faulting run, `none` in the model), because the source performs the `memset`
without checking `malloc`'s result.  The first conjunct shows the inner
`malloc` itself fails cleanly, so the fault is `calloc`'s own. -/
theorem calloc_failure_faults :
    malloc heapNoMem 5000 = some (none, { heapNoMem with sbrks := [] }) ∧
    calloc heapNoMem 1 5000 = none := by
  constructor
  · rfl
  · rfl

/-- C7 counterexample: the very first `malloc` call runs the heap validator —
`extend_heap` invokes `mm_checkheap(0)` unconditionally, and `malloc` reaches
it through lazy initialization (and on any free-list miss). -/
theorem malloc_runs_validator :
    (malloc heap0 1).map (fun r => r.2.checkCount) = some 1 ∧
    heap0.checkCount = 0 := by
  constructor
  · rfl
  · rfl

/-- C7 amended: the validator runs during allocation exactly when the heap is
extended: `free` never changes the invocation count, a `malloc` satisfied
from the free list never changes it, and every successful `extend_heap`
increments it by one. -/
theorem validator_only_on_extension :
    (∀ (h : Heap) (p : Option Nat) (h2 : Heap), h.heap_listp ≠ 0 →
        free h p = some h2 → h2.checkCount = h.checkCount) ∧
    (∀ (h : Heap) (n : Nat) (r : Option Nat × Heap), h.heap_listp ≠ 0 →
        find_fit h (adjSize n) ≠ none → malloc h n = some r →
        r.2.checkCount = h.checkCount) ∧
    (∀ (h : Heap) (words : Nat), (mem_sbrk h).1 = true →
        (extend_heap h words).2.checkCount = h.checkCount + 1) := by
  refine ⟨?_, ?_, ?_⟩
  · intro h p h2 hl hfree
    match p with
    | none =>
      simp only [free, Option.some.injEq] at hfree
      rw [← hfree]
    | some bp =>
      unfold free at hfree
      dsimp only at hfree
      match hsz : sizeAt h bp with
      | none => rw [hsz] at hfree; exact absurd hfree (by simp)
      | some size =>
        rw [hsz, if_neg hl] at hfree
        unfold freeTags at hfree
        dsimp only at hfree
        match hfb : findBlock h bp with
        | none => rw [hfb] at hfree; exact absurd hfree (by simp)
        | some (pre, c, post) =>
          rw [hfb] at hfree
          simp only [Option.some.injEq] at hfree
          rw [← hfree]
          exact (coalesce_fields (setChain h (pre ++ Block.mk size false :: post)) bp).2.1
  · intro h n r hl hfit hmal
    unfold malloc at hmal
    rw [if_neg hl] at hmal
    unfold mallocBody at hmal
    by_cases hn : n = 0
    · rw [if_pos hn] at hmal
      simp only [Option.some.injEq] at hmal
      rw [← hmal]
    · rw [if_neg hn] at hmal
      dsimp only at hmal
      match hff : find_fit h (adjSize n) with
      | none => exact absurd hff hfit
      | some bp =>
        rw [hff] at hmal
        simp only [Option.some.injEq] at hmal
        rw [← hmal]
        exact (place_fields h bp (adjSize n)).2.1
  · intro h words hok
    unfold extend_heap
    dsimp only
    rw [if_neg (by simp [hok])]
    have hc := (coalesce_fields (setChain (mem_sbrk h).2 ((mem_sbrk h).2.blocks.dropLast ++
      [Block.mk (ALIGN (if words % 2 = 1 then (words + 1) * WSIZE else words * WSIZE)) false,
       Block.mk 0 true])) (HEAP_BASE + sumSizes (mem_sbrk h).2.blocks.dropLast)).2.1
    exact congrArg (· + 1) (hc.trans (mem_sbrk_fields h).2.2.2.1)

theorem validator_only_on_extension_witness :
    heapNoMem.heap_listp ≠ 0 ∧ heapNoMemFreed.checkCount = heapNoMem.checkCount :=
  ⟨by decide, validator_only_on_extension.1 heapNoMem (some 32) heapNoMemFreed
    (by decide) (by decide)⟩


/-! ### Word-level model of the heap validator's physical-block walk

The block-walk step of `mm_checkheap` is modelled at the level of raw words
because the claim about it concerns its pointer arithmetic.  `wmem` maps a
byte address to the 32-bit word stored there; `mem_heap_lo()` is address 0
and `mem_heap_hi()` is `heapHi`, the address of the heap's last byte. -/

/-- `GET(p)`: read a word. -/
def wGET (wmem : Nat → Nat) (p : Nat) : Nat := wmem p % 2 ^ 32

/-- `GET_SIZE(p)`: the word with the low three bits cleared. -/
def wSIZE (wmem : Nat → Nat) (p : Nat) : Nat := wGET wmem p / 8 * 8

/-- `GET_ALLOC(p)`: the low bit of the word. -/
def wALLOC (wmem : Nat → Nat) (p : Nat) : Nat := wGET wmem p % 2

/-- The three per-block checks of step 5 of `mm_checkheap`: header and footer
sizes match, header and footer allocation bits match, the size is aligned.
`HDRP(bp) = bp - WSIZE` and `FTRP(bp) = bp + GET_SIZE(HDRP(bp)) - DSIZE`. -/
def blockErrors (wmem : Nat → Nat) (bp : Nat) : List String :=
  let hsize := wSIZE wmem (bp - 4)
  let fp := bp + hsize - 8
  (if wSIZE wmem (bp - 4) ≠ wSIZE wmem fp then
    ["Header and footer size for a block do not match"] else []) ++
  (if wALLOC wmem (bp - 4) ≠ wALLOC wmem fp then
    ["Allocation for header and footer for a block do not match"] else []) ++
  (if hsize ≠ ALIGN hsize then ["Size is not aligned for a block"] else [])

/-- The physical-block loop of `mm_checkheap` exactly as written:
`for (bp = mem_heap_lo() + WSIZE; (bp - (WSIZE - 1)) > mem_heap_hi();
bp = NEXT_BLKP(bp))`, with a fuel bound since the walk need not terminate on
arbitrary word contents. -/
def checkAllBlocksCode (wmem : Nat → Nat) (heapHi : Nat) : Nat → Nat → List String
  | 0, _ => []
  | fuel + 1, bp =>
    if bp - (WSIZE - 1) > heapHi then
      blockErrors wmem bp ++ checkAllBlocksCode wmem heapHi fuel (bp + wSIZE wmem (bp - 4))
    else []

/-- Follows the claim's words (the walk the spec describes): visit every
physical block via the next-block-from-size arithmetic, starting at the
prologue and stopping at the zero-size epilogue, reporting each block's
header/footer and alignment violations. -/
def specWalkBlocks (wmem : Nat → Nat) : Nat → Nat → List String
  | 0, _ => []
  | fuel + 1, bp =>
    if wSIZE wmem (bp - 4) = 0 then []
    else blockErrors wmem bp ++ specWalkBlocks wmem fuel (bp + wSIZE wmem (bp - 4))

/-- A corrupt heap image: prologue at 8 intact (header word 25 at address 4,
footer word 25 at 24), a free block at 32 whose header (word 48 at address
28) claims size 48 while its footer (word 40 at address 72) claims size 40,
and an epilogue header (word 1, size 0, allocated) at 76. -/
def wmemBad : Nat → Nat := fun a =>
  if a = 4 then 25 else if a = 24 then 25 else
  if a = 28 then 48 else if a = 72 then 40 else
  if a = 76 then 1 else 0

/-- C6: the claim fails on the code.  The loop condition of the block walk is
`(bp - (WSIZE - 1)) > mem_heap_hi()`, which is false on entry (`bp` starts at
`mem_heap_lo() + WSIZE`, far below the heap's top), so the body never runs
and no block is ever checked (second and third conjuncts).  On the same
corrupt heap the walk the claim describes reports the header/footer size
mismatch (first conjunct). -/
theorem checkheap_never_walks_blocks :
    specWalkBlocks wmemBad 10 HEAP_BASE =
      ["Header and footer size for a block do not match"] ∧
    checkAllBlocksCode wmemBad 4127 10 (0 + WSIZE) = [] ∧
    (∀ (wmem : Nat → Nat) (heapHi fuel : Nat), 1 ≤ heapHi →
      checkAllBlocksCode wmem heapHi fuel (0 + WSIZE) = []) := by
  refine ⟨by decide, by decide, ?_⟩
  intro wmem heapHi fuel h1
  cases fuel with
  | zero => rfl
  | succ k =>
    unfold checkAllBlocksCode
    rw [if_neg (by unfold WSIZE; omega)]

theorem checkheap_never_walks_blocks_witness :
    (1 : Nat) ≤ 2 ∧ checkAllBlocksCode (fun _ => 5) 2 3 (0 + WSIZE) = [] :=
  ⟨by decide, checkheap_never_walks_blocks.2.2 (fun _ => 5) 2 3 (by decide)⟩

/-- C3: placing a required size `asize` into a free block of size `csize`:
if `csize - asize` is at least the minimum block size `MIN = 24`, the low
`asize` bytes become an allocated block removed from the free list and the
high `csize - asize` bytes become a new free block that is passed through
`coalesce` (a no-op here, both physical neighbors being allocated) and
inserted at the head of the free list; otherwise the entire block of size
`csize` is allocated and removed from the free list. -/
theorem place_split_spec (h : Heap) (pre : List Block) (b nextB : Block)
    (post : List Block) (bp asize : Nat)
    (hb : h.blocks = pre ++ b :: nextB :: post)
    (hpos : ∀ c ∈ pre, 0 < c.size)
    (hbp : bp = HEAP_BASE + sumSizes pre)
    (ha : 0 < asize) (hle : asize ≤ b.size) (hw : b.size < WORD64)
    (hnext : nextB.alloc = true) :
    place h bp asize =
      if MIN ≤ b.size - asize then
        { h with blocks := pre ++ Block.mk asize true ::
                   Block.mk (b.size - asize) false :: nextB :: post,
                 freeList := (bp + asize) :: h.freeList.erase bp }
      else
        { h with blocks := pre ++ Block.mk b.size true :: nextB :: post,
                 freeList := h.freeList.erase bp } := by
  have hfb : findBlock h bp = some (pre, b, nextB :: post) := by
    rw [hbp]
    exact findBlock_eq h pre b (nextB :: post) hb hpos
  have hrem : (b.size + WORD64 - asize) % WORD64 = b.size - asize :=
    sub64_eq b.size asize hle hw
  unfold place
  rw [hfb]
  dsimp only
  rw [hrem]
  by_cases hmin : MIN ≤ b.size - asize
  · rw [if_pos hmin, if_pos hmin]
    have hco : coalesce (remove_block (setChain h (pre ++ Block.mk asize true ::
        Block.mk (b.size - asize) false :: nextB :: post)) bp) (bp + asize) =
        (bp + asize, remove_block (setChain h (pre ++ Block.mk asize true ::
        Block.mk (b.size - asize) false :: nextB :: post)) bp) := by
      by_cases hfl : (remove_block (setChain h (pre ++ Block.mk asize true ::
          Block.mk (b.size - asize) false :: nextB :: post)) bp).freeList = []
      · exact coalesce_empty _ _ hfl
      · have hb2 : (remove_block (setChain h (pre ++ Block.mk asize true ::
            Block.mk (b.size - asize) false :: nextB :: post)) bp).blocks =
            (pre ++ [Block.mk asize true]) ++
              Block.mk (b.size - asize) false :: nextB :: post := by
          simp [remove_block, setChain]
        have hpos2 : ∀ c ∈ pre ++ [Block.mk asize true], 0 < c.size := by
          intro c hc
          rcases List.mem_append.1 hc with hc | hc
          · exact hpos c hc
          · simp only [List.mem_singleton] at hc
            subst hc
            exact ha
        have haddr : HEAP_BASE + sumSizes (pre ++ [Block.mk asize true]) = bp + asize := by
          rw [sumSizes_append, sumSizes_cons, sumSizes_nil, hbp]
          show HEAP_BASE + (sumSizes pre + (asize + 0)) = HEAP_BASE + sumSizes pre + asize
          omega
        have hfb2 : findBlock (remove_block (setChain h (pre ++ Block.mk asize true ::
            Block.mk (b.size - asize) false :: nextB :: post)) bp) (bp + asize) =
            some (pre ++ [Block.mk asize true], Block.mk (b.size - asize) false,
              nextB :: post) := by
          rw [← haddr]
          exact findBlock_eq _ _ _ _ hb2 hpos2
        unfold coalesce
        rw [if_pos hfl, hfb2]
        dsimp only
        rw [List.getLast?_concat]
        simp [hnext]
    rw [hco]
    simp [insert_free_block, remove_block, setChain]
  · rw [if_neg hmin, if_neg hmin]
    rfl

theorem place_split_spec_witness :
    place heapInit 32 24 =
      ⟨[⟨24, true⟩, ⟨24, true⟩, ⟨4072, false⟩, ⟨0, true⟩], [56], 8, 1, [], []⟩ :=
  place_split_spec heapInit [⟨24, true⟩] ⟨4096, false⟩ ⟨0, true⟩ [] 32 24
    rfl (by decide) (by decide) (by decide) (by decide) (by decide) rfl

/-- C2: after a `free` of a live allocated block, no two physically adjacent
blocks of the heap are both free: `free` always hands the freed block to
`coalesce`, which merges it with any free physical neighbor before the
result is reinserted into the free list.  The hypotheses say the pre-state is
well formed: the freed block sits between its physical neighbors `pb` and
`nb` inside the sentinel-delimited chain, the invariant held before the call,
and an empty free list means no free block exists at all. -/
theorem free_keeps_no_adjacent_free (h : Heap) (pre : List Block) (pb b nb : Block)
    (post : List Block) (bp : Nat)
    (hl : h.heap_listp ≠ 0)
    (hb : h.blocks = pre ++ pb :: b :: nb :: post)
    (_halloc : b.alloc = true)
    (hpos : ∀ c ∈ pre ++ [pb], 0 < c.size)
    (hch : noAdjFree h.blocks)
    (hemp : h.freeList = [] → ∀ c ∈ h.blocks, c.alloc = true)
    (hbp : bp = HEAP_BASE + sumSizes (pre ++ [pb])) :
    ∃ h2, free h (some bp) = some h2 ∧ noAdjFree h2.blocks := by
  have hb2 : h.blocks = (pre ++ [pb]) ++ b :: nb :: post := by
    rw [hb]
    simp
  have hsz : sizeAt h bp = some b.size := by
    rw [hbp]
    exact sizeAt_eq h (pre ++ [pb]) b (nb :: post) hb2 hpos
  have hfb : findBlock h bp = some (pre ++ [pb], b, nb :: post) := by
    rw [hbp]
    exact findBlock_eq h (pre ++ [pb]) b (nb :: post) hb2 hpos
  -- decompose the no-adjacent-free hypothesis
  rw [noAdjFree_iff, hb2, List.chain'_append] at hch
  obtain ⟨hc1, hc2, hc3⟩ := hch
  rw [List.chain'_cons] at hc2
  obtain ⟨hbnb, hc4⟩ := hc2
  have hnbpost : ∀ y ∈ post.head?, adjOK nb y := (List.chain'_cons'.mp hc4).1
  have hcpost : List.Chain' adjOK post := (List.chain'_cons'.mp hc4).2
  have hcpre : List.Chain' adjOK pre := (List.chain'_append.mp hc1).1
  have hprejoint : ∀ x ∈ pre.getLast?, adjOK x pb := by
    intro x hx
    exact (List.chain'_append.mp hc1).2.2 x hx pb rfl
  -- evaluate free down to the coalesce call
  unfold free
  dsimp only
  rw [hsz, if_neg hl]
  dsimp only
  unfold freeTags
  rw [hfb]
  dsimp only
  refine ⟨_, rfl, ?_⟩
  show noAdjFree (coalesce (setChain h ((pre ++ [pb]) ++
    Block.mk b.size false :: nb :: post)) bp).2.blocks
  by_cases hfl : h.freeList = []
  · -- empty free list: the coalesce guard short-circuits; both physical
    -- neighbors are allocated because no free block exists at all
    rw [coalesce_empty _ _ (by simp [setChain, hfl])]
    have hpb : pb.alloc = true := hemp hfl pb (by rw [hb]; simp)
    have hnb : nb.alloc = true := hemp hfl nb (by rw [hb]; simp)
    show noAdjFree ((pre ++ [pb]) ++ Block.mk b.size false :: nb :: post)
    rw [noAdjFree_iff, List.chain'_append]
    refine ⟨hc1, ?_, ?_⟩
    · rw [List.chain'_cons]
      exact ⟨Or.inr hnb, List.chain'_cons'.mpr ⟨hnbpost, hcpost⟩⟩
    · intro x hx y hy
      rw [List.getLast?_concat, Option.mem_def, Option.some.injEq] at hx
      simp only [List.head?_cons, Option.mem_def, Option.some.injEq] at hy
      subst hx
      subst hy
      exact Or.inl hpb
  · have hfl2 : (setChain h ((pre ++ [pb]) ++ Block.mk b.size false :: nb :: post)).freeList ≠ [] := hfl
    have hb3 : (setChain h ((pre ++ [pb]) ++ Block.mk b.size false :: nb :: post)).blocks =
        (pre ++ [pb]) ++ Block.mk b.size false :: nb :: post := rfl
    have hfb2 : findBlock (setChain h ((pre ++ [pb]) ++ Block.mk b.size false :: nb :: post)) bp =
        some (pre ++ [pb], Block.mk b.size false, nb :: post) := by
      rw [hbp]
      exact findBlock_eq _ (pre ++ [pb]) (Block.mk b.size false) (nb :: post) hb3 hpos
    unfold coalesce
    rw [if_pos hfl2, hfb2]
    dsimp only
    rw [List.getLast?_concat]
    simp only [List.head?_cons]
    cases hpba : pb.alloc <;> cases hnba : nb.alloc
    · -- both neighbors free: merge all three
      simp only [hpba, hnba, Bool.not_false, Bool.and_true, Bool.and_false,
        Bool.true_and, Bool.false_and, Bool.not_true, if_true, if_false,
        Bool.and_self, ite_true, ite_false]
      show noAdjFree ((pre ++ [pb]).dropLast ++
        Block.mk (b.size + pb.size + nb.size) false :: (nb :: post).drop 1)
      rw [List.dropLast_concat]
      show noAdjFree (pre ++ Block.mk (b.size + pb.size + nb.size) false :: post)
      rw [noAdjFree_iff, List.chain'_append]
      refine ⟨hcpre, ?_, ?_⟩
      · rw [List.chain'_cons']
        refine ⟨?_, hcpost⟩
        intro y hy
        have := hnbpost y hy
        rcases this with hny | hyy
        · rw [hnba] at hny
          exact absurd hny (by simp)
        · exact Or.inr hyy
      · intro x hx y hy
        simp only [List.head?_cons, Option.mem_def, Option.some.injEq] at hy
        subst hy
        have := hprejoint x hx
        rcases this with hxx | hpbx
        · exact Or.inl hxx
        · rw [hpba] at hpbx
          exact absurd hpbx (by simp)
    · -- left neighbor free, right allocated
      simp only [hpba, hnba, Bool.not_false, Bool.and_true, Bool.and_false,
        Bool.true_and, Bool.false_and, Bool.not_true, if_true, if_false,
        ite_true, ite_false]
      show noAdjFree ((pre ++ [pb]).dropLast ++
        Block.mk (b.size + pb.size) false :: nb :: post)
      rw [List.dropLast_concat]
      rw [noAdjFree_iff, List.chain'_append]
      refine ⟨hcpre, ?_, ?_⟩
      · rw [List.chain'_cons]
        exact ⟨Or.inr hnba, List.chain'_cons'.mpr ⟨hnbpost, hcpost⟩⟩
      · intro x hx y hy
        simp only [List.head?_cons, Option.mem_def, Option.some.injEq] at hy
        subst hy
        have := hprejoint x hx
        rcases this with hxx | hpbx
        · exact Or.inl hxx
        · rw [hpba] at hpbx
          exact absurd hpbx (by simp)
    · -- left neighbor allocated, right free
      simp only [hpba, hnba, Bool.not_false, Bool.and_true, Bool.and_false,
        Bool.true_and, Bool.false_and, Bool.not_true, if_true, if_false,
        ite_true, ite_false]
      show noAdjFree ((pre ++ [pb]) ++
        Block.mk (b.size + nb.size) false :: (nb :: post).drop 1)
      show noAdjFree ((pre ++ [pb]) ++ Block.mk (b.size + nb.size) false :: post)
      rw [noAdjFree_iff, List.chain'_append]
      refine ⟨hc1, ?_, ?_⟩
      · rw [List.chain'_cons']
        refine ⟨?_, hcpost⟩
        intro y hy
        have := hnbpost y hy
        rcases this with hny | hyy
        · rw [hnba] at hny
          exact absurd hny (by simp)
        · exact Or.inr hyy
      · intro x hx y hy
        rw [List.getLast?_concat, Option.mem_def, Option.some.injEq] at hx
        simp only [List.head?_cons, Option.mem_def, Option.some.injEq] at hy
        subst hx
        subst hy
        exact Or.inl hpba
    · -- both neighbors allocated: no merge
      simp only [hpba, hnba, Bool.not_true, Bool.and_false, Bool.false_and,
        Bool.and_true, Bool.true_and, if_false, ite_false]
      show noAdjFree ((pre ++ [pb]) ++ Block.mk b.size false :: nb :: post)
      rw [noAdjFree_iff, List.chain'_append]
      refine ⟨hc1, ?_, ?_⟩
      · rw [List.chain'_cons]
        exact ⟨Or.inr hnba, List.chain'_cons'.mpr ⟨hnbpost, hcpost⟩⟩
      · intro x hx y hy
        rw [List.getLast?_concat, Option.mem_def, Option.some.injEq] at hx
        simp only [List.head?_cons, Option.mem_def, Option.some.injEq] at hy
        subst hx
        subst hy
        exact Or.inl hpba

theorem free_keeps_no_adjacent_free_witness :
    ∃ h2, free heapTwo (some 56) = some h2 ∧ noAdjFree h2.blocks :=
  free_keeps_no_adjacent_free heapTwo [⟨24, true⟩] ⟨24, true⟩ ⟨24, true⟩
    ⟨4048, false⟩ [⟨0, true⟩] 56 (by decide) rfl rfl (by decide) (by decide)
    (by decide) (by decide)

end MM
